import Mathlib

/-!
# VocalCore pitch detection / pitch correction engine — verification development

Shallow embedding of the engine's source (the YIN pitch detector and the
TD-PSOLA pitch corrector) and proofs of the specification's claims about it.

Modelling conventions:
* JavaScript numbers are modelled as exact rationals `ℚ`; the transcendental
  functions used by the source (`Math.log2`, `Math.pow(2, ·)`, `Math.exp`,
  `Math.sin`, `Math.cos`, `Math.PI`) are abstracted into a `MathOps` record,
  so every pipeline function is parametric in `ops : MathOps` and fully
  computable.  Structural claims are proved for every `ops`.
* The one place where IEEE semantics is observable — the cumulative mean
  normalized difference `d(τ)·τ / runningSum`, which in JS evaluates to `NaN`
  when `runningSum = 0` (the numerator is then also `0`, since the running sum
  dominates the non-negative `d(τ)`) — is modelled by `Option ℚ`, with `none`
  playing the role of `NaN`/`±Infinity`: every comparison against it is false,
  exactly as in JS.
* The two source loops whose termination is not structural (the mark-placement
  `while` in `findPitchMarks` and the output-mark generation `while` in
  `psolaShift`) are modelled by well-founded recursion resp. by fuel; the fuel
  is proved sufficient under the documented parameter bounds.
* The exact-real versions of the MIDI conversions (`frequencyToMidiR`,
  `midiToFrequencyR`) are used for the analytic round-trip property.
-/

set_option maxRecDepth 8000

namespace VocalCore

/-- Abstraction of the JS `Math` transcendental functions used by the engine.
Pipeline definitions are parametric in this record; `exp2 x` stands for
`Math.pow(2, x)`. -/
structure MathOps where
  log2 : ℚ → ℚ
  exp2 : ℚ → ℚ
  exp : ℚ → ℚ
  sin : ℚ → ℚ
  cos : ℚ → ℚ
  pi : ℚ

/-- A concrete instantiation of `MathOps` used to evaluate the pipeline on
concrete inputs in witnesses (the structural claims hold for every `ops`). -/
def dummyOps : MathOps :=
  { log2 := fun q => q, exp2 := fun q => q, exp := fun q => q,
    sin := fun q => q, cos := fun q => q, pi := 3 }

/-- Sharp spelling of a note letter. -/
def sharp (s : String) : String := s ++ "#"

/-- Musical note names (`NOTE_NAMES` in the source: the twelve semitone
names from C, sharps spelled with `#`). -/
def NOTE_NAMES : List String :=
  ["C", sharp "C", "D", sharp "D", "E", "F",
   sharp "F", "G", sharp "G", "A", sharp "A", "B"]

/-- One analysis frame of the pitch track (`PitchFrame` in the source). -/
structure PitchFrame where
  time : ℚ
  frequency : ℚ
  confidence : ℚ
  midiNote : ℤ
  centsOff : ℚ
  noteName : String
  voiced : Bool
  deriving DecidableEq

instance : Inhabited PitchFrame :=
  ⟨{ time := 0, frequency := 0, confidence := 0, midiNote := 0,
     centsOff := 0, noteName := "-", voiced := false }⟩

/-- The pitch track returned by detection (`PitchTrack` in the source). -/
structure PitchTrack where
  frames : List PitchFrame
  sampleRate : ℚ
  hopSize : ℕ
  medianPitch : ℚ
  deriving DecidableEq

/-- User parameters of the corrector (`CorrectionParams` in the source). -/
structure CorrectionParams where
  retuneSpeed : ℚ
  humanize : ℚ
  tuneAmount : ℚ
  deriving DecidableEq

/-- Source `frequencyToMidi`: `freq <= 0` guard, else `69 + 12·log2(f/440)`. -/
def frequencyToMidi (ops : MathOps) (freq : ℚ) : ℚ :=
  if freq ≤ 0 then 0 else 69 + 12 * ops.log2 (freq / 440)

/-- Source `midiToFrequency`: `440 · 2^((midi − 69)/12)`. -/
def midiToFrequency (ops : MathOps) (midi : ℚ) : ℚ :=
  440 * ops.exp2 ((midi - 69) / 12)

/-- Source `midiToNoteName`.  JS `Math.floor(r/12)` is `Int.fdiv`, and the JS
remainder `%` carries the dividend's sign, so a negative index reads
`undefined` from the note-name table; we return the string "undefined" there,
matching what the JS template literal would render. -/
def midiToNoteName (midi : ℚ) : String :=
  let roundedMidi : ℤ := round midi
  let octave : ℤ := Int.fdiv roundedMidi 12 - 1
  let noteIndex : ℤ := Int.tmod roundedMidi 12
  let name : String :=
    if noteIndex < 0 then "undefined" else NOTE_NAMES.getD noteIndex.toNat "undefined"
  name ++ toString octave

/-- Source `getCentsOff`: `(midi − round(midi)) · 100`. -/
def getCentsOff (midi : ℚ) : ℚ :=
  (midi - (round midi : ℤ)) * 100

/-! ## Pitch detection (YIN), source file `pitchDetection` -/

/-- Comparison of two possibly-`NaN` values; in JS every comparison involving
`NaN` (here `none`) is false. -/
def nanLt (a b : Option ℚ) : Bool :=
  match a, b with
  | some x, some y => decide (x < y)
  | _, _ => false

/-- Difference function `d(τ)` of one analysis frame (source step 1):
`Σ_{j<halfWindow} (x[c+j] − x[c+j+τ])²`.  Every access the source makes is in
range (the frame loop guarantees `c + windowSize < length`), so `getD _ 0` is
faithful. -/
def diffAt (sig : List ℚ) (center halfWindow tau : ℕ) : ℚ :=
  (List.range halfWindow).foldl
    (fun sum j =>
      let delta := sig.getD (center + j) 0 - sig.getD (center + j + tau) 0
      sum + delta * delta) 0

/-- The running sum `Σ_{k=1}^{τ} d(k)` the source accumulates while building
the CMNDF (source step 2). -/
def runSum (sig : List ℚ) (center halfWindow tau : ℕ) : ℚ :=
  (List.range' 1 tau).foldl (fun s k => s + diffAt sig center halfWindow k) 0

/-- Cumulative mean normalized difference `d'(τ)` (source step 2).  When the
running sum is `0` the JS expression `d(τ)·τ / 0` is `0/0 = NaN` (the running
sum dominates the non-negative `d(τ)`); we model that value as `none`. -/
def cmndfAt (sig : List ℚ) (center halfWindow tau : ℕ) : Option ℚ :=
  if tau = 0 then some 1
  else
    let rs := runSum sig center halfWindow tau
    if rs = 0 then none
    else some (diffAt sig center halfWindow tau * tau / rs)

/-- Walk from a below-threshold dip down to the local minimum (the inner
`while` of source step 3).  The loop runs at most `searchMax − tau` times;
recursion is structural on that bound, so the definition evaluates by kernel
reduction. -/
def walkDownGo (cm : ℕ → Option ℚ) (searchMax : ℕ) : ℕ → ℕ → ℕ
  | 0, tau => tau
  | fuel + 1, tau =>
    if tau + 1 < searchMax ∧ nanLt (cm (tau + 1)) (cm tau) = true then
      walkDownGo cm searchMax fuel (tau + 1)
    else tau

/-- Entry point of the local-minimum walk with its exact iteration bound. -/
def walkDown (cm : ℕ → Option ℚ) (searchMax tau : ℕ) : ℕ :=
  walkDownGo cm searchMax (searchMax - tau) tau

/-- Scan for the first `τ` in `[tau, searchMax)` whose CMNDF dips below the
threshold, settled to its local minimum (source step 3, first-dip policy);
structural on the remaining scan length. -/
def findDipGo (cm : ℕ → Option ℚ) (threshold : ℚ) (searchMax : ℕ) :
    ℕ → ℕ → Option ℕ
  | 0, _ => none
  | fuel + 1, tau =>
    if tau < searchMax then
      if nanLt (cm tau) (some threshold) then some (walkDown cm searchMax tau)
      else findDipGo cm threshold searchMax fuel (tau + 1)
    else none

/-- Entry point of the first-dip scan with its exact iteration bound. -/
def findDip (cm : ℕ → Option ℚ) (threshold : ℚ) (searchMax tau : ℕ) :
    Option ℕ :=
  findDipGo cm threshold searchMax (searchMax - tau) tau

/-- Global-minimum fallback of source step 3 (`bestTau = −1`, `bestVal = 1`
when nothing beats the initial value).  A `none` (`NaN`) candidate never wins a
JS `<` comparison, so `getD` never actually falls back to its default. -/
def globalMin (cm : ℕ → Option ℚ) (searchMin searchMax : ℕ) : ℤ × ℚ :=
  (List.range' searchMin (searchMax - searchMin)).foldl
    (fun best tau =>
      if nanLt (cm tau) (some best.2) then ((tau : ℤ), (cm tau).getD best.2)
      else best) (-1, 1)

/-- Combination of source step 3's two searches: the first-dip scan and, if it
finds nothing, the global-minimum fallback (`bestTau`, `bestVal`). -/
def bestOf (cm : ℕ → Option ℚ) (threshold : ℚ) (searchMin searchMax : ℕ) :
    ℤ × ℚ :=
  match findDip cm threshold searchMax searchMin with
  | some t => ((t : ℤ), (cm t).getD 1)
  | none => globalMin cm searchMin searchMax

/-- One frame of YIN analysis centered at `center` (source steps 1–6). -/
def frameAt (ops : MathOps) (sig : List ℚ) (sampleRate : ℚ)
    (halfWindow searchMin searchMax : ℕ) (threshold : ℚ) (center : ℕ) :
    PitchFrame :=
  let cm := cmndfAt sig center halfWindow
  let best : ℤ × ℚ := bestOf cm threshold searchMin searchMax
  let bestTau := best.1
  let bestVal := best.2
  -- Step 4: parabolic interpolation.  A `NaN`/`±Infinity` adjustment (any
  -- neighbour `none`, or a zero denominator) fails the `|adj| < 1` test in JS,
  -- which `none` models here.
  let adj : Option ℚ :=
    if 0 < bestTau ∧ bestTau < (halfWindow : ℤ) - 1 then
      match cm (bestTau - 1).toNat, cm bestTau.toNat, cm (bestTau + 1).toNat with
      | some s0, some s1, some s2 =>
          let den := 2 * (s0 - 2 * s1 + s2)
          if den = 0 then none else some ((s0 - s2) / den)
      | _, _, _ => none
    else none
  let refinedTau : ℚ :=
    match adj with
    | some a => if |a| < 1 then (bestTau : ℚ) + a else (bestTau : ℚ)
    | none => (bestTau : ℚ)
  let voiced := decide (bestVal < threshold * 2)
  let frequency := if voiced = true ∧ 0 < refinedTau then sampleRate / refinedTau else 0
  let midi := frequencyToMidi ops frequency
  let confidence := if voiced = true then 1 - bestVal else 0
  { time := (center : ℚ) / sampleRate
    frequency := frequency
    confidence := confidence
    midiNote := round midi
    centsOff := getCentsOff midi
    noteName := if 0 < frequency then midiToNoteName midi else "-"
    voiced := voiced }

/-- Centers of the analysis frames: the source loop
`for (center = 0; center + windowSize < length; center += hopSize)`.
With `hopSize = 0` the JS loop never terminates; here the fuel runs out in
that (and only that) case.  Each iteration advances `c` by `hop ≥ 1` and
requires `c < len`, so fuel `len − c` is exact. -/
def frameCentersGo (len window hop : ℕ) : ℕ → ℕ → List ℕ
  | 0, _ => []
  | fuel + 1, c =>
    if c + window < len ∧ 0 < hop then c :: frameCentersGo len window hop fuel (c + hop)
    else []

/-- Frame centers starting from `c = 0` with sufficient fuel. -/
def frameCenters (len window hop : ℕ) : List ℕ :=
  frameCentersGo len window hop len 0

/-- Insertion of one element into a sorted list (ascending). -/
def insertQ (x : ℚ) : List ℚ → List ℚ
  | [] => [x]
  | y :: ys => if x ≤ y then x :: y :: ys else y :: insertQ x ys

/-- Ascending sort, modelling the source's `sort((a, b) => a - b)`. -/
def sortQ : List ℚ → List ℚ
  | [] => []
  | x :: xs => insertQ x (sortQ xs)

/-- The frame list built by `detectPitch`'s main loop. -/
def detectFrames (ops : MathOps) (sig : List ℚ) (sampleRate : ℚ)
    (hopSize windowSize : ℕ) (threshold minFreq maxFreq : ℚ) :
    List PitchFrame :=
  let minPeriod : ℤ := ⌊sampleRate / maxFreq⌋
  let maxPeriod : ℤ := ⌈sampleRate / minFreq⌉
  let halfWindow := windowSize / 2
  let searchMin := (max minPeriod 2).toNat
  let searchMax := (min maxPeriod ((halfWindow : ℤ) - 1)).toNat
  (frameCenters sig.length windowSize hopSize).map
    (frameAt ops sig sampleRate halfWindow searchMin searchMax threshold)

/-- Median pitch over the voiced frames (tail of source `detectPitch`). -/
def medianOfFrames (frames : List PitchFrame) : ℚ :=
  let voicedFreqs := sortQ ((frames.filter (fun f => f.voiced)).map
    (fun f => f.frequency))
  if voicedFreqs.isEmpty then 0 else voicedFreqs.getD (voicedFreqs.length / 2) 0

/-- Source `detectPitch`: YIN over all frame centers plus the median pitch of
the voiced frames. -/
def detectPitch (ops : MathOps) (sig : List ℚ) (sampleRate : ℚ)
    (hopSize windowSize : ℕ) (threshold minFreq maxFreq : ℚ) : PitchTrack :=
  { frames := detectFrames ops sig sampleRate hopSize windowSize threshold minFreq maxFreq
    sampleRate := sampleRate
    hopSize := hopSize
    medianPitch := medianOfFrames
      (detectFrames ops sig sampleRate hopSize windowSize threshold minFreq maxFreq) }

/-! ### Frame-count facts (claim C2) -/

theorem frameCentersGo_length (len window hop : ℕ) (hhop : 0 < hop) :
    ∀ fuel c, len - c ≤ fuel →
      (frameCentersGo len window hop fuel c).length
        = if c + window < len then (len - window - c - 1) / hop + 1 else 0 := by
  intro fuel
  induction fuel with
  | zero =>
    intro c hc
    have h : ¬ c + window < len := by omega
    simp [frameCentersGo, h]
  | succ n ih =>
    intro c hc
    by_cases h : c + window < len
    · have hrec := ih (c + hop) (by omega)
      simp only [frameCentersGo, h, hhop, and_self, if_true, true_and,
        List.length_cons]
      rw [hrec]
      by_cases h2 : c + hop + window < len
      · have hle : hop ≤ len - window - c - 1 := by omega
        have he : len - window - c - 1 - hop = len - window - (c + hop) - 1 := by
          omega
        rw [if_pos h2, Nat.div_eq_sub_div hhop hle, he]
      · have hlt : len - window - c - 1 < hop := by omega
        rw [if_neg h2, Nat.div_eq_of_lt hlt]
    · simp [frameCentersGo, h]

theorem detectFrames_length (ops : MathOps) (sig : List ℚ) (sr : ℚ)
    (hop w : ℕ) (th lo hi : ℚ) (hhop : 0 < hop) :
    (detectFrames ops sig sr hop w th lo hi).length
      = if w < sig.length then (sig.length - w - 1) / hop + 1 else 0 := by
  have h := frameCentersGo_length sig.length w hop hhop sig.length 0 (by omega)
  simpa [detectFrames, frameCenters] using h

/-- C2 (amended): with a positive hop size the detector emits one frame per
loop step of `for (center = 0; center + windowSize < length; center += hop)`,
which is `⌊(len − windowSize − 1)/hop⌋ + 1` frames when `len > windowSize` and
none otherwise — in particular zero frames (and `medianPitch = 0`) whenever
`len ≤ windowSize`, including the boundary `len = windowSize`. -/
theorem detectPitch_frameCount (ops : MathOps) (sig : List ℚ) (sr : ℚ)
    (hop w : ℕ) (th lo hi : ℚ) (hhop : 0 < hop) :
    ((detectPitch ops sig sr hop w th lo hi).frames.length
        = if w < sig.length then (sig.length - w - 1) / hop + 1 else 0)
    ∧ (sig.length ≤ w →
        (detectPitch ops sig sr hop w th lo hi).frames = []
        ∧ (detectPitch ops sig sr hop w th lo hi).medianPitch = 0) := by
  have hlen := detectFrames_length ops sig sr hop w th lo hi hhop
  refine ⟨hlen, fun hshort => ?_⟩
  have hnil : detectFrames ops sig sr hop w th lo hi = [] := by
    have : (detectFrames ops sig sr hop w th lo hi).length = 0 := by
      rw [hlen, if_neg (by omega)]
    exact List.length_eq_zero.mp this
  refine ⟨hnil, ?_⟩
  show medianOfFrames (detectFrames ops sig sr hop w th lo hi) = 0
  rw [hnil]
  simp [medianOfFrames, sortQ]

/-- C2 counterexample: at `signal.length = windowSize` the claimed count
`⌊(len − windowSize)/hopSize⌋ + 1 = 1` differs from the code, whose strict
loop bound `center + windowSize < length` emits no frame at all. -/
theorem detectPitch_frameCount_counterexample :
    ¬ ((detectPitch dummyOps (List.replicate 4 (0 : ℚ)) 8 2 4 (3 / 20) 1 4).frames.length
        = ((List.replicate 4 (0 : ℚ)).length - 4) / 2 + 1) := by
  with_unfolding_all decide

/-- Witness for the amended C2 at a concrete signal of length `10` with
`windowSize = 8`, `hopSize = 4`. -/
theorem detectPitch_frameCount_witness :
    (detectPitch dummyOps (List.replicate 10 (0 : ℚ)) 8 4 8 (3 / 20) 1 4).frames.length
      = if 8 < (List.replicate 10 (0 : ℚ)).length
        then ((List.replicate 10 (0 : ℚ)).length - 8 - 1) / 4 + 1 else 0 :=
  (detectPitch_frameCount dummyOps (List.replicate 10 (0 : ℚ)) 8 4 8 (3 / 20) 1 4
    (by decide)).1

/-! ### Silence facts (claim C5) -/

theorem getD_zero_of_all_zero {sig : List ℚ} (hz : ∀ x ∈ sig, x = 0) (i : ℕ) :
    sig.getD i 0 = 0 := by
  induction sig generalizing i with
  | nil => simp
  | cons a l ih =>
    cases i with
    | zero => simpa using hz a (by simp)
    | succ j =>
      simp only [List.getD_cons_succ]
      exact ih (fun x hx => hz x (by simp [hx])) j

theorem diffAt_zero {sig : List ℚ} (hz : ∀ x ∈ sig, x = 0)
    (c hw tau : ℕ) : diffAt sig c hw tau = 0 := by
  have key : ∀ (l : List ℕ) (a : ℚ),
      l.foldl (fun sum j =>
        let delta := sig.getD (c + j) 0 - sig.getD (c + j + tau) 0
        sum + delta * delta) a = a := by
    intro l
    induction l with
    | nil => intro a; rfl
    | cons x xs ih =>
      intro a
      have hx : sig.getD (c + x) 0 - sig.getD (c + x + tau) 0 = 0 := by
        rw [getD_zero_of_all_zero hz (c + x), getD_zero_of_all_zero hz (c + x + tau),
          sub_zero]
      simp only [List.foldl_cons, hx, mul_zero, add_zero]
      exact ih a
  simpa [diffAt] using key (List.range hw) 0

theorem runSum_zero {sig : List ℚ} (hz : ∀ x ∈ sig, x = 0)
    (c hw tau : ℕ) : runSum sig c hw tau = 0 := by
  have key : ∀ (l : List ℕ) (a : ℚ),
      l.foldl (fun s k => s + diffAt sig c hw k) a = a := by
    intro l
    induction l with
    | nil => intro a; rfl
    | cons x xs ih =>
      intro a
      have hx : diffAt sig c hw x = 0 := diffAt_zero hz c hw x
      simp only [List.foldl_cons, hx, add_zero]
      exact ih a
  simpa [runSum] using key (List.range' 1 tau) 0

theorem cmndfAt_none {sig : List ℚ} (hz : ∀ x ∈ sig, x = 0)
    (c hw : ℕ) {tau : ℕ} (htau : 1 ≤ tau) : cmndfAt sig c hw tau = none := by
  have h0 : tau ≠ 0 := by omega
  simp [cmndfAt, h0, runSum_zero hz]

theorem findDipGo_none {cm : ℕ → Option ℚ} (h : ∀ τ, 1 ≤ τ → cm τ = none)
    (th : ℚ) (smax : ℕ) :
    ∀ fuel tau, 1 ≤ tau → findDipGo cm th smax fuel tau = none := by
  intro fuel
  induction fuel with
  | zero => intro tau _; rfl
  | succ n ih =>
    intro tau htau
    simp only [findDipGo]
    by_cases hlt : tau < smax
    · rw [if_pos hlt, h tau htau]
      simp only [nanLt, if_neg]
      exact ih (tau + 1) (by omega)
    · rw [if_neg hlt]

theorem globalMin_none {cm : ℕ → Option ℚ} (h : ∀ τ, 1 ≤ τ → cm τ = none)
    {smin : ℕ} (smax : ℕ) (hsmin : 1 ≤ smin) :
    globalMin cm smin smax = (-1, 1) := by
  have key : ∀ (l : List ℕ) (b : ℤ × ℚ), (∀ τ ∈ l, 1 ≤ τ) →
      l.foldl (fun best tau =>
        if nanLt (cm tau) (some best.2) then ((tau : ℤ), (cm tau).getD best.2)
        else best) b = b := by
    intro l
    induction l with
    | nil => intro b _; rfl
    | cons x xs ih =>
      intro b hall
      simp only [List.foldl_cons, h x (hall x (by simp)), nanLt]
      exact ih b (fun τ hτ => hall τ (by simp [hτ]))
  refine key _ _ fun τ hτ => ?_
  have := List.mem_range'_1.mp hτ
  omega

theorem bestOf_none {cm : ℕ → Option ℚ} (h : ∀ τ, 1 ≤ τ → cm τ = none)
    (th : ℚ) {smin : ℕ} (smax : ℕ) (hsmin : 1 ≤ smin) :
    bestOf cm th smin smax = (-1, 1) := by
  have hdip : findDip cm th smax smin = none :=
    findDipGo_none h th smax (smax - smin) smin hsmin
  simp [bestOf, hdip, globalMin_none h smax hsmin]

theorem frameAt_silence (ops : MathOps) {sig : List ℚ} (sr : ℚ)
    (hw : ℕ) {smin : ℕ} (smax : ℕ) {th : ℚ} (c : ℕ)
    (hz : ∀ x ∈ sig, x = 0) (hth : th * 2 ≤ 1) (hsmin : 1 ≤ smin) :
    (frameAt ops sig sr hw smin smax th c).voiced = false
    ∧ (frameAt ops sig sr hw smin smax th c).frequency = 0 := by
  have hcm : ∀ τ, 1 ≤ τ → cmndfAt sig c hw τ = none :=
    fun τ hτ => cmndfAt_none hz c hw hτ
  have hbest : bestOf (cmndfAt sig c hw) th smin smax = (-1, 1) :=
    bestOf_none hcm th smax hsmin
  have hv : decide ((1 : ℚ) < th * 2) = false := by
    simp only [decide_eq_false_iff_not, not_lt]
    linarith
  constructor
  · simp [frameAt, hbest, hv]
  · simp [frameAt, hbest, hv]

/-- C5: an all-zero signal produces only unvoiced frames with frequency `0`
and a zero median pitch; the zero running sum of the CMNDF behaves as "no dip
found" (the `0/0 = NaN` value loses every JS comparison), so the global
minimum stays at `bestVal = 1`, which fails the voicing test whenever
`2·threshold ≤ 1` (the default threshold is `0.15`). -/
theorem detectPitch_silence (ops : MathOps) (sig : List ℚ) (sr : ℚ)
    (hop w : ℕ) (th lo hi : ℚ) (hz : ∀ x ∈ sig, x = 0) (hth : th * 2 ≤ 1) :
    (∀ f ∈ (detectPitch ops sig sr hop w th lo hi).frames,
      f.voiced = false ∧ f.frequency = 0)
    ∧ (detectPitch ops sig sr hop w th lo hi).medianPitch = 0 := by
  have hmain : ∀ f ∈ detectFrames ops sig sr hop w th lo hi,
      f.voiced = false ∧ f.frequency = 0 := by
    intro f hf
    simp only [detectFrames, List.mem_map] at hf
    obtain ⟨c, _, rfl⟩ := hf
    refine frameAt_silence ops sr _ _ c hz hth ?_
    have h2 : (2 : ℤ) ≤ max ⌊sr / hi⌋ 2 := le_max_right _ _
    omega
  refine ⟨hmain, ?_⟩
  show medianOfFrames (detectFrames ops sig sr hop w th lo hi) = 0
  have hfilter : (detectFrames ops sig sr hop w th lo hi).filter
      (fun f => f.voiced) = [] := by
    rw [List.filter_eq_nil_iff]
    intro f hf
    simp [(hmain f hf).1]
  simp [medianOfFrames, hfilter, sortQ]

/-- Witness for C5 on a concrete all-zero signal of length `6`. -/
theorem detectPitch_silence_witness :
    (detectPitch dummyOps (List.replicate 6 (0 : ℚ)) 8 1 4 (3 / 20) 1 4).medianPitch
      = 0 :=
  (detectPitch_silence dummyOps (List.replicate 6 (0 : ℚ)) 8 1 4 (3 / 20) 1 4
    (by simp) (by norm_num)).2

/-! ## Pitch-track smoothing, source `smoothPitchTrack` -/

/-- Voiced neighborhood frequencies around index `i`: the source loop
`for (j = max(0, i−halfWin); j <= min(len−1, i+halfWin); j++)` collecting
`frames[j].frequency` for voiced `j` (the window includes `i` itself). -/
def voicedNeighborhood (st : List PitchFrame) (i halfWin : ℕ) : List ℚ :=
  let lo := i - halfWin
  let hi := min (st.length - 1) (i + halfWin)
  (List.range' lo (hi + 1 - lo)).filterMap fun j =>
    let g := st.getD j default
    if g.voiced then some g.frequency else none

/-- Octave test `frequency / median > 1.5` with JS division semantics: at
`median = 0` the JS quotient is `+Infinity`, `−Infinity` or `NaN` according to
the numerator's sign, so the comparison holds exactly when the numerator is
positive. -/
def jsRatioGtThreeHalves (freq med : ℚ) : Bool :=
  if med = 0 then decide (0 < freq) else decide (3 / 2 < freq / med)

/-- Octave test `frequency / median < 0.67` with JS division semantics
(at `median = 0` it holds exactly when the numerator is negative). -/
def jsRatioLtPointSixSeven (freq med : ℚ) : Bool :=
  if med = 0 then decide (freq < 0) else decide (freq / med < 67 / 100)

/-- One iteration `i` of the smoothing loop, acting on the current working
array (the source mutates `frames[i]` of the shallow copy in place, so later
iterations read the already-corrected values). -/
def smoothStep (ops : MathOps) (medianWindowSize : ℕ)
    (frames : List PitchFrame) (i : ℕ) : List PitchFrame :=
  match frames.get? i with
  | none => frames
  | some fr =>
    if fr.voiced = false then frames
    else
      let halfWin := medianWindowSize / 2
      let neighborhood := voicedNeighborhood frames i halfWin
      if 3 ≤ neighborhood.length then
        let sorted := sortQ neighborhood
        let medianFreq := sorted.getD (sorted.length / 2) 0
        let newFreq :=
          if jsRatioGtThreeHalves fr.frequency medianFreq then fr.frequency / 2
          else if jsRatioLtPointSixSeven fr.frequency medianFreq then
            fr.frequency * 2
          else fr.frequency
        let midi := frequencyToMidi ops newFreq
        let fr2 : PitchFrame :=
          { fr with
            frequency := newFreq
            midiNote := round midi
            centsOff := getCentsOff midi
            noteName := midiToNoteName midi }
        frames.set i fr2
      else frames

/-- The working array after the first `i` iterations of the smoothing loop. -/
def smoothIter (ops : MathOps) (medianWindowSize : ℕ)
    (frames : List PitchFrame) (i : ℕ) : List PitchFrame :=
  (List.range i).foldl (smoothStep ops medianWindowSize) frames

/-- Source `smoothPitchTrack`: median filtering of octave jumps over the
whole frame array (the JS `[...track.frames]` copies the array but shares the
frame objects, so the in-place loop is exactly this iteration). -/
def smoothPitchTrack (ops : MathOps) (track : PitchTrack)
    (medianWindowSize : ℕ) : List PitchFrame :=
  smoothIter ops medianWindowSize track.frames track.frames.length

/-- Modelled from the spec's wording of the smoothing rule for one frame
(claims C3/C4): the voiced-neighborhood median is read from the *given* fixed
array `st`, the octave tests use plain rational division, and MIDI/cents/name
are recomputed from the corrected frequency. -/
def smoothFrameSpec (ops : MathOps) (medianWindowSize : ℕ)
    (st : List PitchFrame) (i : ℕ) : PitchFrame :=
  let fr := st.getD i default
  let halfWin := medianWindowSize / 2
  let neighborhood := voicedNeighborhood st i halfWin
  if 3 ≤ neighborhood.length then
    let sorted := sortQ neighborhood
    let medianFreq := sorted.getD (sorted.length / 2) 0
    let newFreq :=
      if 3 / 2 < fr.frequency / medianFreq then fr.frequency / 2
      else if fr.frequency / medianFreq < 67 / 100 then fr.frequency * 2
      else fr.frequency
    let midi := frequencyToMidi ops newFreq
    { fr with
      frequency := newFreq
      midiNote := round midi
      centsOff := getCentsOff midi
      noteName := midiToNoteName midi }
  else fr

/-- Modelled from the spec's words for claim C3: the aliasing-free pure
transform, in which every neighborhood is read from the immutable input
sequence. -/
def smoothPitchTrackPure (ops : MathOps) (track : PitchTrack)
    (medianWindowSize : ℕ) : List PitchFrame :=
  (List.range track.frames.length).map fun i =>
    if (track.frames.getD i default).voiced = true
    then smoothFrameSpec ops medianWindowSize track.frames i
    else track.frames.getD i default

/-! ### Generic list access lemmas used by the smoothing proofs -/

theorem getD_set_ne {α : Type} (l : List α) (i j : ℕ) (a d : α) (h : j ≠ i) :
    (l.set i a).getD j d = l.getD j d := by
  induction l generalizing i j with
  | nil => simp
  | cons x xs ih =>
    cases i with
    | zero =>
      cases j with
      | zero => exact absurd rfl h
      | succ m => simp [List.set]
    | succ n =>
      cases j with
      | zero => simp [List.set]
      | succ m =>
        simp only [List.set, List.getD_cons_succ]
        exact ih n m (fun he => h (by omega))

theorem getD_set_self {α : Type} (l : List α) (i : ℕ) (a d : α)
    (h : i < l.length) : (l.set i a).getD i d = a := by
  induction l generalizing i with
  | nil => simp at h
  | cons x xs ih =>
    cases i with
    | zero => simp [List.set]
    | succ n =>
      simp only [List.set, List.getD_cons_succ]
      exact ih n (by simpa using h)

theorem getD_of_get?_eq_some {α : Type} {l : List α} {i : ℕ} {a : α} (d : α)
    (h : l.get? i = some a) : l.getD i d = a := by
  induction l generalizing i with
  | nil => simp at h
  | cons x xs ih =>
    cases i with
    | zero => simp at h; simp [h]
    | succ n =>
      simp only [List.get?] at h
      simp only [List.getD_cons_succ]
      exact ih h

theorem get?_eq_some_getD {α : Type} {l : List α} {i : ℕ} (d : α)
    (h : i < l.length) : l.get? i = some (l.getD i d) := by
  induction l generalizing i with
  | nil => simp at h
  | cons x xs ih =>
    cases i with
    | zero => simp
    | succ n =>
      simp only [List.get?, List.getD_cons_succ]
      exact ih (by simpa using h)

theorem getD_mem {α : Type} {l : List α} {i : ℕ} (d : α) (h : i < l.length) :
    l.getD i d ∈ l := by
  induction l generalizing i with
  | nil => simp at h
  | cons x xs ih =>
    cases i with
    | zero => simp
    | succ n =>
      simp only [List.getD_cons_succ]
      exact List.mem_cons_of_mem x (ih (by simpa using h))

theorem getD_mem_or_default {α : Type} (l : List α) (i : ℕ) (d : α) :
    l.getD i d ∈ l ∨ l.getD i d = d := by
  by_cases h : i < l.length
  · exact Or.inl (getD_mem d h)
  · right
    induction l generalizing i with
    | nil => simp
    | cons x xs ih =>
      cases i with
      | zero => simp at h
      | succ n =>
        simp only [List.getD_cons_succ]
        exact ih n (by simp at h ⊢; omega)

theorem mem_insertQ {x a : ℚ} {l : List ℚ} (h : x ∈ insertQ a l) :
    x = a ∨ x ∈ l := by
  induction l with
  | nil => simpa [insertQ] using h
  | cons y ys ih =>
    simp only [insertQ] at h
    by_cases hle : a ≤ y
    · rw [if_pos hle] at h
      simpa using h
    · rw [if_neg hle] at h
      rcases List.mem_cons.mp h with h1 | h2
      · exact Or.inr (by simp [h1])
      · rcases ih h2 with h3 | h4
        · exact Or.inl h3
        · exact Or.inr (by simp [h4])

theorem mem_sortQ {x : ℚ} {l : List ℚ} (h : x ∈ sortQ l) : x ∈ l := by
  induction l with
  | nil => simpa [sortQ] using h
  | cons y ys ih =>
    simp only [sortQ] at h
    rcases mem_insertQ h with h1 | h2
    · simp [h1]
    · exact List.mem_cons_of_mem y (ih h2)

theorem insertQ_length (a : ℚ) (l : List ℚ) :
    (insertQ a l).length = l.length + 1 := by
  induction l with
  | nil => rfl
  | cons y ys ih =>
    simp only [insertQ]
    by_cases hle : a ≤ y
    · simp [hle]
    · simp [hle, ih]

theorem sortQ_length (l : List ℚ) : (sortQ l).length = l.length := by
  induction l with
  | nil => rfl
  | cons y ys ih => simp [sortQ, insertQ_length, ih]

/-! ### Structure of the smoothing loop (claims C3 and C4) -/

theorem getD_eq_of_len_le {α : Type} {l : List α} {i : ℕ} (d : α)
    (h : l.length ≤ i) : l.getD i d = d := by
  induction l generalizing i with
  | nil => simp
  | cons x xs ih =>
    cases i with
    | zero => simp at h
    | succ n =>
      simp only [List.getD_cons_succ]
      exact ih (by simpa using h)

theorem smoothStep_length (ops : MathOps) (w : ℕ) (fs : List PitchFrame)
    (i : ℕ) : (smoothStep ops w fs i).length = fs.length := by
  unfold smoothStep
  cases hg : fs.get? i with
  | none => rfl
  | some fr =>
    dsimp only
    by_cases hv : fr.voiced = false
    · rw [if_pos hv]
    · rw [if_neg hv]
      split
      · simp [List.length_set]
      · rfl

theorem smoothStep_getD_ne (ops : MathOps) (w : ℕ) (fs : List PitchFrame)
    {i j : ℕ} (h : j ≠ i) :
    (smoothStep ops w fs i).getD j default = fs.getD j default := by
  unfold smoothStep
  cases hg : fs.get? i with
  | none => rfl
  | some fr =>
    dsimp only
    by_cases hv : fr.voiced = false
    · rw [if_pos hv]
    · rw [if_neg hv]
      split
      · exact getD_set_ne _ _ _ _ _ h
      · rfl

theorem smoothStep_getD_unvoiced (ops : MathOps) (w : ℕ)
    (fs : List PitchFrame) (i : ℕ)
    (hv : (fs.getD i default).voiced = false) :
    (smoothStep ops w fs i).getD i default = fs.getD i default := by
  unfold smoothStep
  cases hg : fs.get? i with
  | none => rfl
  | some fr =>
    dsimp only
    have hfr : fr = fs.getD i default := (getD_of_get?_eq_some default hg).symm
    rw [if_pos (by rw [hfr]; exact hv)]

theorem smoothStep_voiced_pos (ops : MathOps) (w : ℕ) (fs : List PitchFrame)
    (i : ℕ) (hpos : ∀ fr ∈ fs, fr.voiced = true → 0 < fr.frequency) :
    ∀ fr ∈ smoothStep ops w fs i, fr.voiced = true → 0 < fr.frequency := by
  unfold smoothStep
  cases hg : fs.get? i with
  | none => exact hpos
  | some fr =>
    dsimp only
    by_cases hv : fr.voiced = false
    · rw [if_pos hv]; exact hpos
    · rw [if_neg hv]
      split
      · intro g hg2 hgv
        rcases List.mem_or_eq_of_mem_set hg2 with hmem | heq
        · exact hpos g hmem hgv
        · have hfr : fr ∈ fs := List.get?_mem hg
          have hf : 0 < fr.frequency := hpos fr hfr (by
            cases hb : fr.voiced
            · exact absurd hb hv
            · rfl)
          subst heq
          simp only
          split
          · positivity
          · split
            · positivity
            · exact hf
      · exact hpos

theorem smoothIter_succ (ops : MathOps) (w : ℕ) (fs : List PitchFrame)
    (k : ℕ) :
    smoothIter ops w fs (k + 1) = smoothStep ops w (smoothIter ops w fs k) k := by
  simp [smoothIter, List.range_succ]

theorem smoothIter_length (ops : MathOps) (w : ℕ) (fs : List PitchFrame)
    (k : ℕ) : (smoothIter ops w fs k).length = fs.length := by
  induction k with
  | zero => rfl
  | succ n ih => rw [smoothIter_succ, smoothStep_length, ih]

theorem smoothIter_voiced_pos (ops : MathOps) (w : ℕ) (fs : List PitchFrame)
    (hpos : ∀ fr ∈ fs, fr.voiced = true → 0 < fr.frequency) (k : ℕ) :
    ∀ fr ∈ smoothIter ops w fs k, fr.voiced = true → 0 < fr.frequency := by
  induction k with
  | zero => exact hpos
  | succ n ih =>
    rw [smoothIter_succ]
    exact smoothStep_voiced_pos ops w _ n ih

theorem smoothIter_getD_early (ops : MathOps) (w : ℕ) (fs : List PitchFrame)
    {i k : ℕ} (h : k ≤ i) :
    (smoothIter ops w fs k).getD i default = fs.getD i default := by
  induction k with
  | zero => rfl
  | succ n ih =>
    rw [smoothIter_succ, smoothStep_getD_ne ops w _ (by omega)]
    exact ih (by omega)

theorem smoothIter_getD_stable (ops : MathOps) (w : ℕ) (fs : List PitchFrame)
    (i : ℕ) : ∀ m, i < m →
    (smoothIter ops w fs m).getD i default
      = (smoothStep ops w (smoothIter ops w fs i) i).getD i default := by
  intro m
  induction m with
  | zero => omega
  | succ k ih =>
    intro him
    by_cases hik : i < k
    · rw [smoothIter_succ, smoothStep_getD_ne ops w _ (by omega)]
      exact ih hik
    · have : i = k := by omega
      subst this
      rw [smoothIter_succ]

/-- C3 (amended, provable part): smoothing returns a new frame sequence of
the same length in which unvoiced frames are passed through unchanged. -/
theorem smoothPitchTrack_length_unvoiced_passthrough (ops : MathOps)
    (track : PitchTrack) (w : ℕ) :
    (smoothPitchTrack ops track w).length = track.frames.length
    ∧ ∀ i : ℕ, (track.frames.getD i default).voiced = false →
        (smoothPitchTrack ops track w).getD i default
          = track.frames.getD i default := by
  constructor
  · exact smoothIter_length ops w track.frames track.frames.length
  · intro i hv
    by_cases hin : i < track.frames.length
    · have h1 := smoothIter_getD_stable ops w track.frames i
        track.frames.length hin
      have h2 : (smoothIter ops w track.frames i).getD i default
          = track.frames.getD i default :=
        smoothIter_getD_early ops w track.frames (le_refl i)
      have h3 := smoothStep_getD_unvoiced ops w
        (smoothIter ops w track.frames i) i (by rw [h2]; exact hv)
      show (smoothIter ops w track.frames track.frames.length).getD i default
        = track.frames.getD i default
      rw [h1, h3, h2]
    · have hlen : (smoothPitchTrack ops track w).length = track.frames.length :=
        smoothIter_length ops w track.frames track.frames.length
      rw [getD_eq_of_len_le default (by omega),
        getD_eq_of_len_le default (by omega)]

theorem voicedNeighborhood_pos (st : List PitchFrame) (i hw : ℕ)
    (hpos : ∀ fr ∈ st, fr.voiced = true → 0 < fr.frequency) :
    ∀ x ∈ voicedNeighborhood st i hw, 0 < x := by
  intro x hx
  simp only [voicedNeighborhood, List.mem_filterMap] at hx
  obtain ⟨j, _, hj⟩ := hx
  split at hj
  · next hvj =>
    have hx2 : (st.getD j default).frequency = x := Option.some.inj hj
    rcases getD_mem_or_default st j default with hm | he
    · rw [← hx2]
      exact hpos _ hm hvj
    · rw [he] at hvj
      simp [default] at hvj
  · exact absurd hj (by simp)

theorem median_pos_of_all_pos {l : List ℚ} (hlen : 0 < l.length)
    (hpos : ∀ x ∈ l, 0 < x) :
    0 < (sortQ l).getD ((sortQ l).length / 2) 0 := by
  have hslen : (sortQ l).length = l.length := sortQ_length l
  have hidx : (sortQ l).length / 2 < (sortQ l).length := by
    rw [hslen]
    exact Nat.div_lt_self hlen (by norm_num)
  exact hpos _ (mem_sortQ (getD_mem 0 hidx))

/-- C4 (amended): for a track whose voiced frames have positive frequencies
and an odd median window, the smoothed value at a voiced index `i` is exactly
the spec's neighborhood rule — but evaluated on the *working* array after the
first `i` loop iterations (in which earlier frames are already corrected),
not on the input array. -/
theorem smoothPitchTrack_frame_rule (ops : MathOps) (track : PitchTrack)
    (w i : ℕ) (hodd : w % 2 = 1) (hi : i < track.frames.length)
    (hv : (track.frames.getD i default).voiced = true)
    (hpos : ∀ fr ∈ track.frames, fr.voiced = true → 0 < fr.frequency) :
    (smoothPitchTrack ops track w).getD i default
      = smoothFrameSpec ops w (smoothIter ops w track.frames i) i := by
  have hstlen : (smoothIter ops w track.frames i).length = track.frames.length :=
    smoothIter_length ops w track.frames i
  have hfr : (smoothIter ops w track.frames i).getD i default
      = track.frames.getD i default :=
    smoothIter_getD_early ops w track.frames (le_refl i)
  have hget : (smoothIter ops w track.frames i).get? i
      = some ((smoothIter ops w track.frames i).getD i default) :=
    get?_eq_some_getD default (by omega)
  have hstep := smoothIter_getD_stable ops w track.frames i
    track.frames.length hi
  show (smoothIter ops w track.frames track.frames.length).getD i default = _
  rw [hstep]
  unfold smoothStep smoothFrameSpec
  rw [hget]
  dsimp only
  rw [if_neg (by rw [hfr, hv]; simp)]
  by_cases hn : 3 ≤ (voicedNeighborhood (smoothIter ops w track.frames i) i
      (w / 2)).length
  · rw [if_pos hn, if_pos hn,
      getD_set_self _ _ _ _ (by rw [hstlen]; exact hi)]
    have hmedpos : 0 < (sortQ (voicedNeighborhood
        (smoothIter ops w track.frames i) i (w / 2))).getD
          ((sortQ (voicedNeighborhood (smoothIter ops w track.frames i) i
            (w / 2))).length / 2) 0 :=
      median_pos_of_all_pos (by omega)
        (voicedNeighborhood_pos _ i (w / 2)
          (smoothIter_voiced_pos ops w track.frames hpos i))
    have hmed0 : (sortQ (voicedNeighborhood
        (smoothIter ops w track.frames i) i (w / 2))).getD
          ((sortQ (voicedNeighborhood (smoothIter ops w track.frames i) i
            (w / 2))).length / 2) 0 ≠ 0 := ne_of_gt hmedpos
    simp only [jsRatioGtThreeHalves, jsRatioLtPointSixSeven, if_neg hmed0,
      decide_eq_true_eq]
  · rw [if_neg hn, if_neg hn]

/-- Concrete all-voiced frame used by the smoothing counterexamples. -/
def ceFrame (f : ℚ) : PitchFrame :=
  { time := 0, frequency := f, confidence := 1, midiNote := 0,
    centsOff := 0, noteName := "-", voiced := true }

/-- Concrete three-frame track on which sequential in-place smoothing and the
aliasing-free pure transform disagree: the first frame is halved from `500` to
`250`, which changes the neighborhood median seen by the second frame. -/
def ceTrack : PitchTrack :=
  { frames := [ceFrame 500, ceFrame 200, ceFrame 300], sampleRate := 8,
    hopSize := 1, medianPitch := 300 }

/-- C3 counterexample: on `ceTrack` the source's smoothing (which reads
already-corrected earlier frames through the aliased array) produces
frequencies `[250, 200, 300]`, while the aliasing-free pure transform the
claim describes produces `[250, 400, 300]`. -/
theorem smoothPitchTrack_not_pure_counterexample :
    (smoothPitchTrack dummyOps ceTrack 5).map (fun f => f.frequency)
      ≠ (smoothPitchTrackPure dummyOps ceTrack 5).map (fun f => f.frequency) := by
  with_unfolding_all decide

/-- Concrete track with an unvoiced frame at index `0`, for the amended C3
witness. -/
def ceTrackU : PitchTrack :=
  { frames := [default, ceFrame 200, ceFrame 300], sampleRate := 8,
    hopSize := 1, medianPitch := 250 }

/-- Witness for the amended C3: on a track with an unvoiced frame at index
`0`, that frame passes through smoothing unchanged. -/
theorem smoothPitchTrack_passthrough_witness :
    (smoothPitchTrack dummyOps ceTrackU 5).getD 0 default
      = ceTrackU.frames.getD 0 default :=
  (smoothPitchTrack_length_unvoiced_passthrough dummyOps ceTrackU 5).2 0
    (by with_unfolding_all decide)

/-- C4 counterexample: at index `1` of `ceTrack` the claim's rule evaluated on
the *input* frequencies predicts doubling (`200 → 400`, since `200/300 <
0.67`), but the code leaves the frame at `200` because the already-halved
frame `0` moves the working median to `250`. -/
theorem smoothPitchTrack_inputMedian_counterexample :
    ((smoothPitchTrack dummyOps ceTrack 5).getD 1 default).frequency = 200
    ∧ (smoothFrameSpec dummyOps 5 ceTrack.frames 1).frequency = 400 := by
  with_unfolding_all decide

/-- Witness for the amended C4 at `ceTrack`, index `0`. -/
theorem smoothPitchTrack_frame_rule_witness :
    (smoothPitchTrack dummyOps ceTrack 5).getD 0 default
      = smoothFrameSpec dummyOps 5 (smoothIter dummyOps 5 ceTrack.frames 0) 0 :=
  smoothPitchTrack_frame_rule dummyOps ceTrack 5 0 (by decide)
    (by with_unfolding_all decide) (by with_unfolding_all decide)
    (by with_unfolding_all decide)

/-! ## Target pitch computation, source `computeTargetPitches` -/

/-- Recursion over the frames carrying the explicit convergence state
`(currentCorrectedMidi, initialized)`; `alpha`, the vibrato
parameters and the humanize amount are precomputed outside the loop. -/
def targetsGo (ops : MathOps)
    (alpha vibratoRate vibratoDepth maxHumanizeCents humanizeAmount : ℚ) :
    List (ℕ × PitchFrame) → ℚ → Bool → List ℚ
  | [], _, _ => []
  | (i, frame) :: rest, currentCorrectedMidi, initialized =>
    if frame.voiced = false ∨ frame.frequency ≤ 0 then
      0 :: targetsGo ops alpha vibratoRate vibratoDepth maxHumanizeCents
        humanizeAmount rest currentCorrectedMidi initialized
    else
      let originalMidi := frequencyToMidi ops frame.frequency
      let targetMidi : ℚ := ((round originalMidi : ℤ) : ℚ)
      let cur0 := if initialized then currentCorrectedMidi else targetMidi
      let cur1 := cur0 + alpha * (targetMidi - cur0)
      let vibrato := ops.sin (2 * ops.pi * vibratoRate * frame.time)
        * vibratoDepth / 100
      let drift := ops.sin ((i : ℚ) * (1 / 10)) * ops.cos ((i : ℚ) * (37 / 1000))
        * maxHumanizeCents / 100
      let humanizedMidi :=
        if 0 < humanizeAmount then cur1 + (vibrato + drift) else cur1
      midiToFrequency ops humanizedMidi
        :: targetsGo ops alpha vibratoRate vibratoDepth maxHumanizeCents
          humanizeAmount rest cur1 true

/-- Source `computeTargetPitches`: one target frequency per frame,
`0` for unvoiced frames. -/
def computeTargetPitches (ops : MathOps) (frames : List PitchFrame)
    (sampleRate : ℚ) (hopSize : ℕ) (params : CorrectionParams) : List ℚ :=
  let hopDuration := (hopSize : ℚ) / sampleRate
  let retuneTimeSec := params.retuneSpeed / 1000
  let alpha := if 0 < retuneTimeSec
    then 1 - ops.exp (-(hopDuration / retuneTimeSec)) else 1
  let humanizeAmount := params.humanize / 100
  let maxHumanizeCents := humanizeAmount * 30
  let vibratoRate := 9 / 2 + humanizeAmount * 2
  let vibratoDepth := humanizeAmount * 15
  targetsGo ops alpha vibratoRate vibratoDepth maxHumanizeCents humanizeAmount
    frames.enum 0 false

/-- The humanize offset as a pure function of `(time, frameIndex, amount)` —
the formulation of claim C8. -/
def humanizeOffset (ops : MathOps) (time : ℚ) (i : ℕ) (amount : ℚ) : ℚ :=
  if 0 < amount then
    ops.sin (2 * ops.pi * (9 / 2 + amount * 2) * time) * (amount * 15) / 100
      + ops.sin ((i : ℚ) * (1 / 10)) * ops.cos ((i : ℚ) * (37 / 1000))
        * (amount * 30) / 100
  else 0

/-- The target recursion with the humanize contribution factored through
`humanizeOffset`. -/
def targetsGoFactored (ops : MathOps) (alpha amount : ℚ) :
    List (ℕ × PitchFrame) → ℚ → Bool → List ℚ
  | [], _, _ => []
  | (i, frame) :: rest, currentCorrectedMidi, initialized =>
    if frame.voiced = false ∨ frame.frequency ≤ 0 then
      0 :: targetsGoFactored ops alpha amount rest currentCorrectedMidi
        initialized
    else
      let targetMidi : ℚ :=
        ((round (frequencyToMidi ops frame.frequency) : ℤ) : ℚ)
      let cur0 := if initialized then currentCorrectedMidi else targetMidi
      let cur1 := cur0 + alpha * (targetMidi - cur0)
      midiToFrequency ops (cur1 + humanizeOffset ops frame.time i amount)
        :: targetsGoFactored ops alpha amount rest cur1 true

/-- `computeTargetPitches` with the humanize offsets factored out. -/
def computeTargetPitchesFactored (ops : MathOps) (frames : List PitchFrame)
    (sampleRate : ℚ) (hopSize : ℕ) (params : CorrectionParams) : List ℚ :=
  let hopDuration := (hopSize : ℚ) / sampleRate
  let retuneTimeSec := params.retuneSpeed / 1000
  let alpha := if 0 < retuneTimeSec
    then 1 - ops.exp (-(hopDuration / retuneTimeSec)) else 1
  targetsGoFactored ops alpha (params.humanize / 100) frames.enum 0 false

/-! ## Pitch-mark placement, source `findPitchMarks` -/

/-- Position of maximal `|signal[j]|` over `[lo, hi)`, first maximum kept
(the source compares with strict `>` against a running maximum initialized to
`-Infinity`, which `none` models); `init` is the position variable's initial
value, returned when the range is empty. -/
def argmaxStep (sig : List ℚ) (st : ℕ × Option ℚ) (j : ℕ) : ℕ × Option ℚ :=
  match st.2 with
  | none => (j, some |sig.getD j 0|)
  | some v => if v < |sig.getD j 0| then (j, some |sig.getD j 0|) else st

/-- Fold of `argmaxStep` over the search range. -/
def argmaxAbs (sig : List ℚ) (lo hi init : ℕ) : ℕ :=
  ((List.range' lo (hi - lo)).foldl (argmaxStep sig) (init, (none : Option ℚ))).1

/-- The inner mark-placement `while` of `findPitchMarks`: refine the next
mark to the local peak within `±period/4`, push it, advance one period.
Each iteration requires `nextMark < signal.length` and (for `period ≥ 1`)
strictly increases `nextMark`, so fuel `signal.length + 1` is exact; the flag
records whether the loop finished.  With `period = 0` the JS loop never
terminates, and here the fuel runs out with flag `false`. -/
def markWhileGo (sig : List ℚ) (period frameEnd : ℕ) :
    ℕ → ℕ → List ℕ → List ℕ × Bool
  | 0, nextMark, acc =>
    (acc, decide (¬ (nextMark < frameEnd ∧ nextMark < sig.length)))
  | fuel + 1, nextMark, acc =>
    if nextMark < frameEnd ∧ nextMark < sig.length then
      let searchRadius := period / 4
      let bestPos := argmaxAbs sig (nextMark - searchRadius)
        (min sig.length (nextMark + searchRadius)) nextMark
      markWhileGo sig period frameEnd fuel (bestPos + period) (acc ++ [bestPos])
    else (acc, true)

/-- One frame's contribution to the mark list (body of the outer loop of
`findPitchMarks`): seed anchor if no mark exists yet, then the `while` loop.
A negative JS period (negative sample rate) is clamped to `0` by `toNat`,
which matches the JS behavior on the anchor search and the loop guard. -/
def pitchMarkFrameStep (sig : List ℚ) (sampleRate : ℚ) (hopSize : ℕ)
    (marks : List ℕ) (i : ℕ) (frame : PitchFrame) : List ℕ :=
  if frame.voiced = false ∨ frame.frequency ≤ 0 then marks
  else
    let period := (round (sampleRate / frame.frequency)).toNat
    let frameStart := i * hopSize
    let frameEnd := min (frameStart + hopSize) sig.length
    let marks1 :=
      if marks.isEmpty then
        marks ++ [argmaxAbs sig frameStart
          (min (frameStart + period) sig.length) frameStart]
      else marks
    let lastMark := marks1.getLastD 0
    if lastMark + period < frameEnd + period then
      (markWhileGo sig period frameEnd (sig.length + 1) (lastMark + period)
        marks1).1
    else marks1

/-- Outer loop of `findPitchMarks` over the frames, carrying the index. -/
def findPitchMarksGo (sig : List ℚ) (sampleRate : ℚ) (hopSize : ℕ) :
    List PitchFrame → ℕ → List ℕ → List ℕ
  | [], _, marks => marks
  | frame :: rest, i, marks =>
    findPitchMarksGo sig sampleRate hopSize rest (i + 1)
      (pitchMarkFrameStep sig sampleRate hopSize marks i frame)

/-- Source `findPitchMarks`. -/
def findPitchMarks (sig : List ℚ) (frames : List PitchFrame)
    (sampleRate : ℚ) (hopSize : ℕ) : List ℕ :=
  findPitchMarksGo sig sampleRate hopSize frames 0 []

/-! ## TD-PSOLA resynthesis, source `psolaShift` -/

/-- Source closure `getFrameIndex`:
`min(frames.length − 1, max(0, floor(samplePos / hopSize)))`
(`Int.toNat` is the `max 0` composed with the floor). -/
def getFrameIndexAt (nFrames hopSize : ℕ) (samplePos : ℚ) : ℕ :=
  min (nFrames - 1) (Int.toNat ⌊samplePos / (hopSize : ℚ)⌋)

/-- Output-mark generation `while` of `psolaShift`: advance by the target
period in voiced spans (pushing the rounded position while inside the
signal) and by `hopSize` in unvoiced spans.  The flag records whether the
loop finished within the given fuel. -/
def outMarksGo (len : ℕ) (sampleRate : ℚ) (hopSize : ℕ) (targetFreqs : List ℚ)
    (nFrames : ℕ) : ℕ → ℚ → List ℕ → List ℕ × Bool
  | 0, pos, acc => (acc, decide ((len : ℚ) ≤ pos))
  | fuel + 1, pos, acc =>
    if pos < (len : ℚ) then
      let targetFreq := targetFreqs.getD (getFrameIndexAt nFrames hopSize pos) 0
      if targetFreq ≤ 0 then
        outMarksGo len sampleRate hopSize targetFreqs nFrames fuel
          (pos + (hopSize : ℚ)) acc
      else
        let pos2 := pos + sampleRate / targetFreq
        outMarksGo len sampleRate hopSize targetFreqs nFrames fuel pos2
          (if pos2 < (len : ℚ) then acc ++ [(round pos2).toNat] else acc)
    else (acc, true)

/-- Lower bound for one advance of the output-mark loop: the minimum of
`hopSize` and every positive target period `sampleRate / t`. -/
def minStepFold (sampleRate m t : ℚ) : ℚ :=
  if 0 < t ∧ 0 < sampleRate / t then min m (sampleRate / t) else m

/-- Fold of `minStepFold` over the targets, seeded with `hopSize`. -/
def minStepQ (sampleRate : ℚ) (hopSize : ℕ) (targetFreqs : List ℚ) : ℚ :=
  targetFreqs.foldl (minStepFold sampleRate) (hopSize : ℚ)

/-- Fuel sufficient for the output-mark loop (sufficiency is proved for
claim C9). -/
def outFuel (len : ℕ) (sampleRate : ℚ) (hopSize : ℕ)
    (targetFreqs : List ℚ) : ℕ :=
  if 0 < minStepQ sampleRate hopSize targetFreqs then
    (⌈(len : ℚ) / minStepQ sampleRate hopSize targetFreqs⌉).toNat + 1
  else 1

/-- Nearest-input-mark search resuming at the persisted `inputMarkIdx`
(source: a strict improvement updates mark, distance and saved index; a
strictly larger distance breaks; a tie keeps scanning). -/
def nearestGo (outPos : ℕ) :
    List ℕ → ℕ → ℕ → ℕ → ℕ → ℕ × ℕ
  | [], _, curNearest, _, saved => (curNearest, saved)
  | mj :: rest, j, curNearest, curMin, saved =>
    let dist := ((outPos : ℤ) - (mj : ℤ)).natAbs
    if dist < curMin then nearestGo outPos rest (j + 1) mj dist j
    else if curMin < dist then (curNearest, saved)
    else nearestGo outPos rest (j + 1) curNearest curMin saved

/-- Placement of one grain at output mark `outPos`; the state is
`(output, envelope, inputMarkIdx)`. -/
def grainStep (ops : MathOps) (sig : List ℚ) (pitchMarks : List ℕ)
    (frames : List PitchFrame) (sampleRate : ℚ) (hopSize : ℕ)
    (st : List ℚ × List ℚ × ℕ) (outPos : ℕ) : List ℚ × List ℚ × ℕ :=
  let near := nearestGo outPos (pitchMarks.drop st.2.2) st.2.2
    (pitchMarks.getD 0 0) ((outPos : ℤ) - (pitchMarks.getD 0 0 : ℤ)).natAbs
    st.2.2
  let nearestInputMark := near.1
  let idx := near.2
  let frameIdx := getFrameIndexAt frames.length hopSize (nearestInputMark : ℚ)
  match frames.get? frameIdx with
  | none => (st.1, st.2.1, idx)
  | some f =>
    if f.frequency ≤ 0 then (st.1, st.2.1, idx)
    else
      let origPeriod := (round (sampleRate / f.frequency)).toNat
      let grainSize := origPeriod * 2
      -- halfGrain = grainSize / 2 = origPeriod exactly (grainSize is even),
      -- so the JS loop runs j from −origPeriod to origPeriod − 1
      let oe := (List.range grainSize).foldl
        (fun (oe : List ℚ × List ℚ) k =>
          let j : ℤ := (k : ℤ) - (origPeriod : ℤ)
          let inIdx := (nearestInputMark : ℤ) + j
          let outIdx := (outPos : ℤ) + j
          if inIdx < 0 ∨ (sig.length : ℤ) ≤ inIdx then oe
          else if outIdx < 0 ∨ (sig.length : ℤ) ≤ outIdx then oe
          else
            let t := ((j : ℚ) + (origPeriod : ℚ)) / (grainSize : ℚ)
            let window := 1 / 2 * (1 - ops.cos (2 * ops.pi * t))
            (oe.1.set outIdx.toNat
              (oe.1.getD outIdx.toNat 0 + sig.getD inIdx.toNat 0 * window),
             oe.2.set outIdx.toNat (oe.2.getD outIdx.toNat 0 + window)))
        (st.1, st.2.1)
      (oe.1, oe.2, idx)

/-- Grain-accumulation stage of `psolaShift`: output and envelope buffers
before normalization, starting from the output marks
`[pitchMarks[0], …generated…]`. -/
def psolaAccum (ops : MathOps) (sig : List ℚ) (pitchMarks : List ℕ)
    (frames : List PitchFrame) (targetFreqs : List ℚ) (sampleRate : ℚ)
    (hopSize : ℕ) : List ℚ × List ℚ :=
  let len := sig.length
  let outputMarks := pitchMarks.getD 0 0 ::
    (outMarksGo len sampleRate hopSize targetFreqs frames.length
      (outFuel len sampleRate hopSize targetFreqs)
      ((pitchMarks.getD 0 0 : ℕ) : ℚ) []).1
  let res := outputMarks.foldl
    (grainStep ops sig pitchMarks frames sampleRate hopSize)
    (List.replicate len 0, List.replicate len 0, 0)
  (res.1, res.2.1)

/-- Source `psolaShift`: copy through when fewer than 2 marks exist,
otherwise overlap-add the grains and normalize by the envelope with the
original sample as fallback at (or below) the `0.001` epsilon. -/
def psolaShift (ops : MathOps) (sig : List ℚ) (pitchMarks : List ℕ)
    (frames : List PitchFrame) (targetFreqs : List ℚ) (sampleRate : ℚ)
    (hopSize : ℕ) : List ℚ :=
  if pitchMarks.length < 2 then sig
  else
    let oe := psolaAccum ops sig pitchMarks frames targetFreqs sampleRate
      hopSize
    (List.range sig.length).map fun i =>
      if 1 / 1000 < oe.2.getD i 0 then oe.1.getD i 0 / oe.2.getD i 0
      else sig.getD i 0

/-! ## Correction orchestrator, source `correctPitch` / `hardTune` -/

/-- Source `correctPitch`: the `tuneAmount ≤ 0` bypass (`new Float32Array(x)`
is a value-equal copy), else detection → smoothing → targets → marks → PSOLA
→ wet/dry blend. -/
def correctPitch (ops : MathOps) (inputSignal : List ℚ) (sampleRate : ℚ)
    (params : CorrectionParams) : List ℚ :=
  if params.tuneAmount ≤ 0 then inputSignal
  else
    let hopSize := 256
    let windowSize := 2048
    let pitchTrack := detectPitch ops inputSignal sampleRate hopSize
      windowSize (3 / 20) 60 1200
    let smoothedFrames := smoothPitchTrack ops pitchTrack 5
    let targetFreqs := computeTargetPitches ops smoothedFrames sampleRate
      hopSize params
    let pitchMarks := findPitchMarks inputSignal smoothedFrames sampleRate
      hopSize
    let corrected := psolaShift ops inputSignal pitchMarks smoothedFrames
      targetFreqs sampleRate hopSize
    let wetAmount := params.tuneAmount / 100
    let dryAmount := 1 - wetAmount
    (List.range inputSignal.length).map fun i =>
      corrected.getD i 0 * wetAmount + inputSignal.getD i 0 * dryAmount

/-- Source `hardTune`: instant fully-wet non-humanized correction. -/
def hardTune (ops : MathOps) (inputSignal : List ℚ) (sampleRate : ℚ) :
    List ℚ :=
  correctPitch ops inputSignal sampleRate
    { retuneSpeed := 0, humanize := 0, tuneAmount := 100 }

/-! ### Identity bypass (claim C1) -/

/-- C1: with `tuneAmount ≤ 0`, `correctPitch` returns an unmodified copy of
the input signal — same length, every sample equal — and, the bypass being the
first statement of the function, no detection or correction work is reached. -/
theorem correctPitch_bypass_of_tuneAmount_nonpos (ops : MathOps)
    (sig : List ℚ) (sr : ℚ) (params : CorrectionParams)
    (h : params.tuneAmount ≤ 0) :
    correctPitch ops sig sr params = sig := by
  simp only [correctPitch, if_pos h]

/-- Witness for C1 on a concrete three-sample signal with `tuneAmount = 0`. -/
theorem correctPitch_bypass_witness :
    correctPitch dummyOps [1, 2, 3] 44100
      { retuneSpeed := 0, humanize := 0, tuneAmount := 0 } = [1, 2, 3] :=
  correctPitch_bypass_of_tuneAmount_nonpos dummyOps [1, 2, 3] 44100
    { retuneSpeed := 0, humanize := 0, tuneAmount := 0 } (le_refl 0)

/-! ### Humanize determinism (claim C8) -/

theorem targetsGo_eq_factored (ops : MathOps) (alpha amt : ℚ) :
    ∀ (l : List (ℕ × PitchFrame)) (cur : ℚ) (init : Bool),
      targetsGo ops alpha (9 / 2 + amt * 2) (amt * 15) (amt * 30) amt l cur init
        = targetsGoFactored ops alpha amt l cur init := by
  intro l
  induction l with
  | nil => intro cur init; rfl
  | cons p rest ih =>
    intro cur init
    obtain ⟨i, frame⟩ := p
    by_cases hv : frame.voiced = false ∨ frame.frequency ≤ 0
    · simp only [targetsGo, targetsGoFactored, if_pos hv]
      rw [ih]
    · simp only [targetsGo, targetsGoFactored, if_neg hv]
      rw [ih]
      congr 1
      by_cases ha : 0 < amt
      · simp [humanizeOffset, ha]
      · simp [humanizeOffset, ha]

/-- C8: the engine is a pure function of its arguments (in this embedding two
calls with equal inputs are definitionally equal), and the humanize vibrato
and drift contributions factor through `humanizeOffset`, a closed function of
exactly `(frame time, frame index, humanize amount)` — no hidden
random-number-generator state. -/
theorem computeTargetPitches_humanize_factoring (ops : MathOps)
    (frames : List PitchFrame) (sr : ℚ) (hop : ℕ)
    (params : CorrectionParams) :
    computeTargetPitches ops frames sr hop params
      = computeTargetPitchesFactored ops frames sr hop params := by
  simp only [computeTargetPitches, computeTargetPitchesFactored]
  exact targetsGo_eq_factored ops _ (params.humanize / 100) frames.enum 0 false

/-! ### PSOLA normalization (claim C7) -/

/-- Trig record whose cosine is the constant `499/500`, making every Hann
window value exactly the epsilon `0.001`; it exercises the boundary of the
normalization comparison. -/
def cosOps : MathOps :=
  { log2 := fun q => q, exp2 := fun q => q, exp := fun q => q,
    sin := fun q => q, cos := fun _ => 499 / 500, pi := 3 }

/-- Six-sample signal of the C7 boundary counterexample. -/
def sigCE : List ℚ := [1 / 10, 2 / 10, 3 / 10, 4 / 10, 5 / 10, 6 / 10]

/-- Two voiced frames at 2 Hz used by the C7 counterexample. -/
def framesCE : List PitchFrame := [ceFrame 2, ceFrame 2]

theorem getD_map_range {α : Type} (n : ℕ) (f : ℕ → α) (i : ℕ) (d : α)
    (h : i < n) : ((List.range n).map f).getD i d = f i := by
  rw [List.getD_eq_getElem?_getD, List.getElem?_map, List.getElem?_range h]
  rfl

/-- C7 counterexample: on `sigCE` the accumulated envelope at index `2` is
exactly the epsilon `0.001`; the claim ("at or above the epsilon receives the
quotient") predicts `(2/10000)/(1/1000) = 1/5` there, but the code's strict
comparison `envelope > 0.001` falls back to the original sample `3/10`. -/
theorem psolaShift_boundary_counterexample :
    (psolaAccum cosOps sigCE [0, 3] framesCE [4, 1 / 2] 4 1).2.getD 2 0
        = 1 / 1000
    ∧ (psolaShift cosOps sigCE [0, 3] framesCE [4, 1 / 2] 4 1).getD 2 0
        ≠ (psolaAccum cosOps sigCE [0, 3] framesCE [4, 1 / 2] 4 1).1.getD 2 0
          / (psolaAccum cosOps sigCE [0, 3] framesCE [4, 1 / 2] 4 1).2.getD 2 0 := by
  with_unfolding_all decide

/-- C7 (amended): with at least two input marks, every output sample whose
accumulated envelope is *strictly above* the `0.001` epsilon receives the
accumulated windowed-grain sum divided by the envelope, and every sample with
envelope *at or below* the epsilon receives exactly the original input sample
(the code's comparison is strict, so the boundary value falls back). -/
theorem psolaShift_normalization (ops : MathOps) (sig : List ℚ)
    (marks : List ℕ) (frames : List PitchFrame) (targets : List ℚ)
    (sr : ℚ) (hop : ℕ) (hm : 2 ≤ marks.length) (i : ℕ) (hi : i < sig.length) :
    (1 / 1000 < (psolaAccum ops sig marks frames targets sr hop).2.getD i 0 →
      (psolaShift ops sig marks frames targets sr hop).getD i 0
        = (psolaAccum ops sig marks frames targets sr hop).1.getD i 0
          / (psolaAccum ops sig marks frames targets sr hop).2.getD i 0)
    ∧ ((psolaAccum ops sig marks frames targets sr hop).2.getD i 0 ≤ 1 / 1000 →
      (psolaShift ops sig marks frames targets sr hop).getD i 0
        = sig.getD i 0) := by
  have hlt : ¬ marks.length < 2 := by omega
  constructor
  · intro henv
    simp only [psolaShift, if_neg hlt]
    rw [getD_map_range _ _ _ _ hi, if_pos henv]
  · intro henv
    simp only [psolaShift, if_neg hlt]
    rw [getD_map_range _ _ _ _ hi, if_neg (by linarith)]

/-- Witness for the amended C7 at index `0` of the concrete instance, whose
envelope is exactly the epsilon and therefore falls back to the original
sample. -/
theorem psolaShift_normalization_witness :
    (psolaShift cosOps sigCE [0, 3] framesCE [4, 1 / 2] 4 1).getD 0 0
      = sigCE.getD 0 0 :=
  (psolaShift_normalization cosOps sigCE [0, 3] framesCE [4, 1 / 2] 4 1
    (by decide) 0 (by decide)).2 (by with_unfolding_all decide)

/-! ### Pitch-mark invariants (claim C6) -/

theorem foldl_argmaxStep_fst (sig : List ℚ) :
    ∀ (l : List ℕ) (st : ℕ × Option ℚ),
      (l.foldl (argmaxStep sig) st).1 = st.1
      ∨ (l.foldl (argmaxStep sig) st).1 ∈ l := by
  intro l
  induction l with
  | nil => intro st; exact Or.inl rfl
  | cons x xs ih =>
    intro st
    rw [List.foldl_cons]
    rcases ih (argmaxStep sig st x) with h | h
    · rw [h]
      rcases hst : st.2 with _ | v
      · refine Or.inr ?_
        simp only [argmaxStep, hst]
        simp
      · by_cases hv : v < |sig.getD x 0|
        · refine Or.inr ?_
          simp only [argmaxStep, hst]
          rw [if_pos hv]
          simp
        · refine Or.inl ?_
          simp only [argmaxStep, hst]
          rw [if_neg hv]
    · exact Or.inr (List.mem_cons_of_mem x h)

theorem argmaxAbs_cases (sig : List ℚ) (lo hi init : ℕ) :
    argmaxAbs sig lo hi init = init
    ∨ argmaxAbs sig lo hi init ∈ List.range' lo (hi - lo) :=
  foldl_argmaxStep_fst sig (List.range' lo (hi - lo)) (init, none)

theorem argmaxAbs_ge (sig : List ℚ) (lo hi init : ℕ) (h : lo ≤ init) :
    lo ≤ argmaxAbs sig lo hi init := by
  rcases argmaxAbs_cases sig lo hi init with he | hm
  · omega
  · have := List.mem_range'_1.mp hm
    omega

theorem argmaxAbs_lt_of (sig : List ℚ) (lo hi init L : ℕ) (h1 : init < L)
    (h2 : hi ≤ L) : argmaxAbs sig lo hi init < L := by
  rcases argmaxAbs_cases sig lo hi init with he | hm
  · omega
  · have := List.mem_range'_1.mp hm
    omega

theorem markWhileGo_inv (sig : List ℚ) (period frameEnd : ℕ)
    (hp : 1 ≤ period) :
    ∀ fuel nextMark acc,
      List.Chain' (· < ·) acc →
      (∀ m ∈ acc, m < sig.length) →
      (∀ p, acc.getLast? = some p → p + period ≤ nextMark) →
      List.Chain' (· < ·) (markWhileGo sig period frameEnd fuel nextMark acc).1
      ∧ ∀ m ∈ (markWhileGo sig period frameEnd fuel nextMark acc).1,
          m < sig.length := by
  intro fuel
  induction fuel with
  | zero => intro nm acc h1 h2 _; exact ⟨h1, h2⟩
  | succ n ih =>
    intro nm acc h1 h2 h3
    simp only [markWhileGo]
    by_cases hc : nm < frameEnd ∧ nm < sig.length
    · rw [if_pos hc]
      have hge : nm - period / 4
          ≤ argmaxAbs sig (nm - period / 4)
              (min sig.length (nm + period / 4)) nm :=
        argmaxAbs_ge sig _ _ nm (Nat.sub_le _ _)
      have hltL : argmaxAbs sig (nm - period / 4)
          (min sig.length (nm + period / 4)) nm < sig.length :=
        argmaxAbs_lt_of sig _ _ nm sig.length hc.2 (min_le_left _ _)
      have hr : period / 4 < period := Nat.div_lt_self (by omega) (by norm_num)
      apply ih
      · rw [List.chain'_append]
        refine ⟨h1, List.chain'_singleton _, ?_⟩
        intro x hx y hy
        simp only [List.head?_cons, Option.mem_def, Option.some.injEq] at hy
        subst hy
        have := h3 x hx
        omega
      · intro m hm
        rcases List.mem_append.mp hm with hm1 | hm2
        · exact h2 m hm1
        · have : m = argmaxAbs sig (nm - period / 4)
              (min sig.length (nm + period / 4)) nm := by simpa using hm2
          omega
      · intro p hp2
        rw [List.getLast?_concat] at hp2
        have : p = argmaxAbs sig (nm - period / 4)
            (min sig.length (nm + period / 4)) nm := by
          simpa using hp2.symm
        omega
    · rw [if_neg hc]
      exact ⟨h1, h2⟩

theorem markWhileGo_complete (sig : List ℚ) (period frameEnd : ℕ)
    (hp : 1 ≤ period) :
    ∀ fuel nextMark acc, sig.length + 1 ≤ fuel + nextMark →
      (markWhileGo sig period frameEnd fuel nextMark acc).2 = true := by
  intro fuel
  induction fuel with
  | zero =>
    intro nm acc h
    simp only [markWhileGo, decide_eq_true_eq]
    omega
  | succ n ih =>
    intro nm acc h
    simp only [markWhileGo]
    by_cases hc : nm < frameEnd ∧ nm < sig.length
    · rw [if_pos hc]
      have hge : nm - period / 4
          ≤ argmaxAbs sig (nm - period / 4)
              (min sig.length (nm + period / 4)) nm :=
        argmaxAbs_ge sig _ _ nm (Nat.sub_le _ _)
      have hr : period / 4 < period := Nat.div_lt_self (by omega) (by norm_num)
      apply ih
      omega
    · rw [if_neg hc]

theorem markEntry_inv (sig : List ℚ) (period frameEnd : ℕ)
    (hp : 1 ≤ period) (marks1 : List ℕ)
    (h1 : List.Chain' (· < ·) marks1) (h2 : ∀ m ∈ marks1, m < sig.length) :
    List.Chain' (· < ·)
      (if marks1.getLastD 0 + period < frameEnd + period then
        (markWhileGo sig period frameEnd (sig.length + 1)
          (marks1.getLastD 0 + period) marks1).1
      else marks1)
    ∧ ∀ m ∈ (if marks1.getLastD 0 + period < frameEnd + period then
        (markWhileGo sig period frameEnd (sig.length + 1)
          (marks1.getLastD 0 + period) marks1).1
      else marks1), m < sig.length := by
  by_cases hw : marks1.getLastD 0 + period < frameEnd + period
  · rw [if_pos hw]
    apply markWhileGo_inv sig period frameEnd hp (sig.length + 1) _ _ h1 h2
    intro p hp2
    rw [List.getLastD_eq_getLast?, hp2]
    simp
  · rw [if_neg hw]
    exact ⟨h1, h2⟩

theorem pitchMarkFrameStep_inv (sig : List ℚ) (sr : ℚ) (hop : ℕ)
    (marks : List ℕ) (i : ℕ) (frame : PitchFrame)
    (h1 : List.Chain' (· < ·) marks) (h2 : ∀ m ∈ marks, m < sig.length)
    (hper : frame.voiced = true → 0 < frame.frequency →
      1 ≤ round (sr / frame.frequency))
    (hstart : frame.voiced = true → 0 < frame.frequency →
      i * hop < sig.length) :
    List.Chain' (· < ·) (pitchMarkFrameStep sig sr hop marks i frame)
    ∧ ∀ m ∈ pitchMarkFrameStep sig sr hop marks i frame, m < sig.length := by
  unfold pitchMarkFrameStep
  by_cases hun : frame.voiced = false ∨ frame.frequency ≤ 0
  · rw [if_pos hun]
    exact ⟨h1, h2⟩
  · rw [if_neg hun]
    push_neg at hun
    have hv : frame.voiced = true := by
      cases hb : frame.voiced
      · exact absurd hb hun.1
      · rfl
    have hf : 0 < frame.frequency := hun.2
    have hperiod : 1 ≤ (round (sr / frame.frequency)).toNat := by
      have := hper hv hf
      omega
    have hist : i * hop < sig.length := hstart hv hf
    have hinv1 : List.Chain' (· < ·)
        (if marks.isEmpty then marks ++ [argmaxAbs sig (i * hop)
          (min (i * hop + (round (sr / frame.frequency)).toNat) sig.length)
          (i * hop)] else marks)
        ∧ ∀ m ∈ (if marks.isEmpty then marks ++ [argmaxAbs sig (i * hop)
          (min (i * hop + (round (sr / frame.frequency)).toNat) sig.length)
          (i * hop)] else marks), m < sig.length := by
      by_cases hemp : marks.isEmpty
      · rw [if_pos hemp]
        have hnil : marks = [] := List.isEmpty_iff.mp hemp
        subst hnil
        refine ⟨by simp, ?_⟩
        intro m hm
        have hm2 : m = argmaxAbs sig (i * hop)
            (min (i * hop + (round (sr / frame.frequency)).toNat) sig.length)
            (i * hop) := by simpa using hm
        have := argmaxAbs_lt_of sig (i * hop)
          (min (i * hop + (round (sr / frame.frequency)).toNat) sig.length)
          (i * hop) sig.length hist (min_le_right _ _)
        omega
      · rw [if_neg hemp]
        exact ⟨h1, h2⟩
    exact markEntry_inv sig (round (sr / frame.frequency)).toNat
      (min (i * hop + hop) sig.length) hperiod _ hinv1.1 hinv1.2

theorem findPitchMarksGo_inv (sig : List ℚ) (sr : ℚ) (hop : ℕ) :
    ∀ (rest : List PitchFrame) (i : ℕ) (marks : List ℕ),
      List.Chain' (· < ·) marks → (∀ m ∈ marks, m < sig.length) →
      (∀ k fr, rest.get? k = some fr → fr.voiced = true →
        0 < fr.frequency →
        1 ≤ round (sr / fr.frequency) ∧ (i + k) * hop < sig.length) →
      List.Chain' (· < ·) (findPitchMarksGo sig sr hop rest i marks)
      ∧ ∀ m ∈ findPitchMarksGo sig sr hop rest i marks, m < sig.length := by
  intro rest
  induction rest with
  | nil => intro i marks h1 h2 _; exact ⟨h1, h2⟩
  | cons fr rest2 ih =>
    intro i marks h1 h2 hrest
    simp only [findPitchMarksGo]
    have hstep := pitchMarkFrameStep_inv sig sr hop marks i fr h1 h2
      (fun hv hf => ((hrest 0 fr rfl hv hf).1))
      (fun hv hf => by
        have h0 := (hrest 0 fr rfl hv hf).2
        simpa using h0)
    exact ih (i + 1) _ hstep.1 hstep.2 (fun k fr2 hk hv hf => by
      have h5 := hrest (k + 1) fr2 hk hv hf
      refine ⟨h5.1, ?_⟩
      have harith : i + 1 + k = i + (k + 1) := by omega
      rw [harith]
      exact h5.2)

theorem mem_enumFrom_of_get? {α : Type} :
    ∀ (l : List α) (n k : ℕ) (a : α), l.get? k = some a →
      (n + k, a) ∈ l.enumFrom n := by
  intro l
  induction l with
  | nil => intro n k a h; simp at h
  | cons x xs ih =>
    intro n k a h
    cases k with
    | zero =>
      simp only [List.get?] at h
      simp [List.enumFrom, Option.some.inj h]
    | succ m =>
      simp only [List.get?] at h
      have := ih (n + 1) m a h
      simp only [List.enumFrom, List.mem_cons]
      right
      have harith : n + (m + 1) = n + 1 + m := by omega
      rw [harith]
      exact this

/-- C6 (amended): provided every voiced frame's rounded pitch period
`round(sampleRate/frequency)` is at least one sample and every voiced frame's
start offset `i·hopSize` lies inside the signal, `findPitchMarks` returns a
strictly increasing sequence of valid sample indices into the signal.
(Without those side conditions a mark can fall outside the signal, see the
counterexample.) -/
theorem findPitchMarks_strictMono_bounds (sig : List ℚ)
    (frames : List PitchFrame) (sr : ℚ) (hop : ℕ)
    (hper : ∀ fr ∈ frames, fr.voiced = true → 0 < fr.frequency →
      1 ≤ round (sr / fr.frequency))
    (hstart : ∀ p ∈ frames.enum, p.2.voiced = true → 0 < p.2.frequency →
      p.1 * hop < sig.length) :
    List.Chain' (· < ·) (findPitchMarks sig frames sr hop)
    ∧ ∀ m ∈ findPitchMarks sig frames sr hop, m < sig.length := by
  apply findPitchMarksGo_inv sig sr hop frames 0 [] (by simp) (by simp)
  intro k fr hk hv hf
  constructor
  · exact hper fr (List.get?_mem hk) hv hf
  · have hmem : (0 + k, fr) ∈ frames.enumFrom 0 :=
      mem_enumFrom_of_get? frames 0 k fr hk
    have := hstart (0 + k, fr) hmem hv hf
    simpa using this

/-- C6 counterexample: with a three-sample signal, hop size 4 and a voiced
frame at index 1 (period `round(8/4) = 2 ≥ 1`), the anchor search range is
empty and the code pushes the out-of-range mark `4 ∉ [0, 3)`. -/
theorem findPitchMarks_bounds_counterexample :
    ((findPitchMarks [(0 : ℚ), 0, 0] [default, ceFrame 4] 8 4).all
      (fun m => decide (m < 3))) = false := by
  with_unfolding_all decide

/-- Witness for the amended C6 on a concrete voiced signal: the resulting
mark list is strictly increasing. -/
theorem findPitchMarks_strictMono_witness :
    List.Chain' (· < ·)
      (findPitchMarks [0, 1, 0, 1 / 2, 1, 0] [ceFrame 2] 8 4) :=
  (findPitchMarks_strictMono_bounds [0, 1, 0, 1 / 2, 1, 0] [ceFrame 2] 8 4
    (by with_unfolding_all decide) (by with_unfolding_all decide)).1

/-! ### Termination and completeness of the pipeline (claim C9) -/

theorem minStepFold_le (sr : ℚ) (m t : ℚ) : minStepFold sr m t ≤ m := by
  unfold minStepFold
  split
  · exact min_le_left _ _
  · exact le_refl m

theorem foldl_minStepFold_le (sr : ℚ) :
    ∀ (l : List ℚ) (b : ℚ), l.foldl (minStepFold sr) b ≤ b := by
  intro l
  induction l with
  | nil => intro b; exact le_refl b
  | cons t ts ih =>
    intro b
    rw [List.foldl_cons]
    exact le_trans (ih (minStepFold sr b t)) (minStepFold_le sr b t)

theorem minStepQ_le_hop (sr : ℚ) (hop : ℕ) (targets : List ℚ) :
    minStepQ sr hop targets ≤ (hop : ℚ) :=
  foldl_minStepFold_le sr targets (hop : ℚ)

theorem minStepQ_pos (sr : ℚ) (hop : ℕ) (targets : List ℚ)
    (hhop : 0 < (hop : ℚ)) : 0 < minStepQ sr hop targets := by
  have key : ∀ (l : List ℚ) (b : ℚ), 0 < b → 0 < l.foldl (minStepFold sr) b := by
    intro l
    induction l with
    | nil => intro b hb; exact hb
    | cons t ts ih =>
      intro b hb
      rw [List.foldl_cons]
      apply ih
      unfold minStepFold
      split
      · next hc => exact lt_min hb hc.2
      · exact hb
  exact key targets _ hhop

theorem minStepQ_le_of_mem (sr : ℚ) (hop : ℕ) (targets : List ℚ) {t : ℚ}
    (hmem : t ∈ targets) (h1 : 0 < t) (h2 : 0 < sr / t) :
    minStepQ sr hop targets ≤ sr / t := by
  have key : ∀ (l : List ℚ) (b : ℚ), t ∈ l →
      l.foldl (minStepFold sr) b ≤ sr / t := by
    intro l
    induction l with
    | nil => intro b hb; simp at hb
    | cons x xs ih =>
      intro b hb
      rw [List.foldl_cons]
      rcases List.mem_cons.mp hb with heq | hmem2
      · subst heq
        calc xs.foldl (minStepFold sr) (minStepFold sr b t)
            ≤ minStepFold sr b t := foldl_minStepFold_le sr xs _
          _ ≤ sr / t := by
              unfold minStepFold
              rw [if_pos ⟨h1, h2⟩]
              exact min_le_right _ _
      · exact ih _ hmem2
  exact key targets _ hmem

theorem outMarksGo_complete (len : ℕ) (sr : ℚ) (hop : ℕ) (targets : List ℚ)
    (nF : ℕ) (hsr : 0 < sr) (hhop : 1 ≤ hop) :
    ∀ fuel (pos : ℚ) acc,
      (⌈((len : ℚ) - pos) / minStepQ sr hop targets⌉).toNat ≤ fuel →
      (outMarksGo len sr hop targets nF fuel pos acc).2 = true := by
  have hms : 0 < minStepQ sr hop targets :=
    minStepQ_pos sr hop targets (by exact_mod_cast Nat.lt_of_lt_of_le Nat.zero_lt_one hhop)
  intro fuel
  induction fuel with
  | zero =>
    intro pos acc h
    have hc : ⌈((len : ℚ) - pos) / minStepQ sr hop targets⌉ ≤ 0 := by omega
    have hd : ((len : ℚ) - pos) / minStepQ sr hop targets ≤ 0 := by
      exact_mod_cast Int.ceil_le.mp hc
    have hnum : (len : ℚ) - pos ≤ 0 := by
      by_contra hpos2
      push_neg at hpos2
      have := div_pos hpos2 hms
      linarith
    simp only [outMarksGo, decide_eq_true_eq]
    linarith
  | succ n ih =>
    intro pos acc h
    simp only [outMarksGo]
    by_cases hp : pos < (len : ℚ)
    · rw [if_pos hp]
      by_cases htz : targets.getD (getFrameIndexAt nF hop pos) 0 ≤ 0
      · rw [if_pos htz]
        apply ih
        have hstep : minStepQ sr hop targets ≤ (hop : ℚ) :=
          minStepQ_le_hop sr hop targets
        have h1 : (1 : ℚ) ≤ (hop : ℚ) / minStepQ sr hop targets :=
          (one_le_div hms).mpr hstep
        have h2 : ((len : ℚ) - (pos + (hop : ℚ))) / minStepQ sr hop targets
            = ((len : ℚ) - pos) / minStepQ sr hop targets
              - (hop : ℚ) / minStepQ sr hop targets := by ring
        have h3 : ((len : ℚ) - (pos + (hop : ℚ))) / minStepQ sr hop targets
            ≤ ((len : ℚ) - pos) / minStepQ sr hop targets - 1 := by
          rw [h2]; linarith
        have h4 : ⌈((len : ℚ) - (pos + (hop : ℚ))) / minStepQ sr hop targets⌉
            ≤ ⌈((len : ℚ) - pos) / minStepQ sr hop targets⌉ - 1 := by
          calc ⌈((len : ℚ) - (pos + (hop : ℚ))) / minStepQ sr hop targets⌉
              ≤ ⌈((len : ℚ) - pos) / minStepQ sr hop targets - 1⌉ :=
                Int.ceil_le_ceil h3
            _ = ⌈((len : ℚ) - pos) / minStepQ sr hop targets⌉ - 1 :=
                Int.ceil_sub_one _
        omega
      · rw [if_neg htz]
        push_neg at htz
        have htmem : targets.getD (getFrameIndexAt nF hop pos) 0 ∈ targets := by
          by_cases hidx : getFrameIndexAt nF hop pos < targets.length
          · exact getD_mem 0 hidx
          · exfalso
            rw [getD_eq_of_len_le 0 (by omega)] at htz
            exact lt_irrefl 0 htz
        have hdivpos : 0 < sr / targets.getD (getFrameIndexAt nF hop pos) 0 :=
          div_pos hsr htz
        have hstep : minStepQ sr hop targets
            ≤ sr / targets.getD (getFrameIndexAt nF hop pos) 0 :=
          minStepQ_le_of_mem sr hop targets htmem htz hdivpos
        apply ih
        have h1 : (1 : ℚ) ≤ (sr / targets.getD (getFrameIndexAt nF hop pos) 0)
            / minStepQ sr hop targets := (one_le_div hms).mpr hstep
        have h2 : ((len : ℚ) - (pos + sr / targets.getD
              (getFrameIndexAt nF hop pos) 0)) / minStepQ sr hop targets
            = ((len : ℚ) - pos) / minStepQ sr hop targets
              - (sr / targets.getD (getFrameIndexAt nF hop pos) 0)
                / minStepQ sr hop targets := by ring
        have h3 : ((len : ℚ) - (pos + sr / targets.getD
              (getFrameIndexAt nF hop pos) 0)) / minStepQ sr hop targets
            ≤ ((len : ℚ) - pos) / minStepQ sr hop targets - 1 := by
          rw [h2]; linarith
        have h4 : ⌈((len : ℚ) - (pos + sr / targets.getD
              (getFrameIndexAt nF hop pos) 0)) / minStepQ sr hop targets⌉
            ≤ ⌈((len : ℚ) - pos) / minStepQ sr hop targets⌉ - 1 := by
          calc ⌈((len : ℚ) - (pos + sr / targets.getD
                (getFrameIndexAt nF hop pos) 0)) / minStepQ sr hop targets⌉
              ≤ ⌈((len : ℚ) - pos) / minStepQ sr hop targets - 1⌉ :=
                Int.ceil_le_ceil h3
            _ = ⌈((len : ℚ) - pos) / minStepQ sr hop targets⌉ - 1 :=
                Int.ceil_sub_one _
        omega
    · rw [if_neg hp]

theorem correctPitch_length (ops : MathOps) (sig : List ℚ) (sr : ℚ)
    (params : CorrectionParams) :
    (correctPitch ops sig sr params).length = sig.length := by
  unfold correctPitch
  split
  · rfl
  · simp

/-- C9: on in-range inputs the pipeline produces a complete buffer and its
two non-structural loops terminate: `correctPitch` always returns a buffer of
the input's length; the mark-placement loop finishes within `signal.length +
1` iterations whenever the frame period is at least one sample; and the
output-mark loop of `psolaShift` finishes within its fuel `outFuel` for any
positive sample rate and hop size and any start position `0 ≤ pos`. -/
theorem enginePipeline_terminates (ops : MathOps) (sig : List ℚ) (sr : ℚ)
    (params : CorrectionParams) (targets : List ℚ) (nFrames hop : ℕ)
    (period frameEnd nextMark : ℕ) (pos : ℚ) (acc1 acc2 : List ℕ)
    (hsr : 0 < sr) (hhop : 1 ≤ hop) (hperiod : 1 ≤ period) (hpos : 0 ≤ pos) :
    (correctPitch ops sig sr params).length = sig.length
    ∧ (markWhileGo sig period frameEnd (sig.length + 1) nextMark acc1).2 = true
    ∧ (outMarksGo sig.length sr hop targets nFrames
        (outFuel sig.length sr hop targets) pos acc2).2 = true := by
  refine ⟨correctPitch_length ops sig sr params, ?_, ?_⟩
  · exact markWhileGo_complete sig period frameEnd hperiod (sig.length + 1)
      nextMark acc1 (by omega)
  · have hms : 0 < minStepQ sr hop targets :=
      minStepQ_pos sr hop targets
        (by exact_mod_cast Nat.lt_of_lt_of_le Nat.zero_lt_one hhop)
    apply outMarksGo_complete sig.length sr hop targets nFrames hsr hhop
    unfold outFuel
    rw [if_pos hms]
    have hnum : (sig.length : ℚ) - pos ≤ (sig.length : ℚ) := by linarith
    have hle : ((sig.length : ℚ) - pos) / minStepQ sr hop targets
        ≤ (sig.length : ℚ) / minStepQ sr hop targets :=
      (div_le_div_right hms).mpr hnum
    have hceil : ⌈((sig.length : ℚ) - pos) / minStepQ sr hop targets⌉
        ≤ ⌈(sig.length : ℚ) / minStepQ sr hop targets⌉ := Int.ceil_le_ceil hle
    omega

/-- Witness for C9 at a concrete signal, parameter set, and loop state. -/
theorem enginePipeline_terminates_witness :
    (correctPitch dummyOps [1, 2, 3] 4
      { retuneSpeed := 0, humanize := 0, tuneAmount := 50 }).length
      = ([1, 2, 3] : List ℚ).length :=
  (enginePipeline_terminates dummyOps [1, 2, 3] 4
    { retuneSpeed := 0, humanize := 0, tuneAmount := 50 } [4] 1 1 2 3 0 0 [] []
    (by norm_num) (by norm_num) (by norm_num) (le_refl 0)).1

/-- Exact-real version of `frequencyToMidi` (JS `Math.log2` is the real
base-2 logarithm). -/
noncomputable def frequencyToMidiR (freq : ℝ) : ℝ :=
  if freq ≤ 0 then 0 else 69 + 12 * Real.logb 2 (freq / 440)

/-- Exact-real version of `midiToFrequency` (JS `Math.pow(2, x)` is the real
power `2 ^ x`). -/
noncomputable def midiToFrequencyR (midi : ℝ) : ℝ :=
  440 * (2 : ℝ) ^ ((midi - 69) / 12)

/-- C10: for every frequency in the audible range `[20, 20000]` Hz the MIDI
round-trip `midiToFrequency (frequencyToMidi f)` recovers `f` within `1e-6`
relative error (in exact real arithmetic the round-trip is exact). -/
theorem midi_roundtrip (f : ℝ) (h₁ : 20 ≤ f) (h₂ : f ≤ 20000) :
    |midiToFrequencyR (frequencyToMidiR f) - f| ≤ f * (1 / 1000000) := by
  have hf : 0 < f := lt_of_lt_of_le (by norm_num) h₁
  have hguard : ¬ f ≤ 0 := not_le.mpr hf
  have hx : (0 : ℝ) < f / 440 := by positivity
  have hexp : frequencyToMidiR f = 69 + 12 * Real.logb 2 (f / 440) := by
    simp [frequencyToMidiR, hguard]
  have harg : (frequencyToMidiR f - 69) / 12 = Real.logb 2 (f / 440) := by
    rw [hexp]; ring
  have hpow : midiToFrequencyR (frequencyToMidiR f) = f := by
    rw [midiToFrequencyR, harg, Real.rpow_logb (by norm_num) (by norm_num) hx]
    field_simp
  rw [hpow]
  simp only [sub_self, abs_zero]
  positivity

/-- Witness for C10 at the concrete frequency `f = 440` Hz. -/
theorem midi_roundtrip_witness :
    |midiToFrequencyR (frequencyToMidiR 440) - 440| ≤ 440 * (1 / 1000000) :=
  midi_roundtrip 440 (by norm_num) (by norm_num)

end VocalCore
